import Mathlib

/-!
Shallow embedding of the multibrot renderer (`mandelbrot.py`).

The numeric core of the program works on Python `complex`/`float` values;
we embed it over `ℂ` and `ℝ` (exact arithmetic).  Python's `int(x)`
conversion truncates toward zero, which we model by `pytrunc`; the purely
rational coordinate mapper is embedded over `ℚ` so that it stays
executable.  A Python tuple of statically unknown length is modelled as a
`List ℤ`, and the tuple unpacking `red, green, blue = ...` that fails at
run time when the list does not have exactly three elements is modelled
by an `Option` result.
-/

namespace Mandelbrot

/-- Python `int(x)` on a float: truncation toward zero. -/
noncomputable def pytrunc (x : ℝ) : ℤ :=
  if 0 ≤ x then ⌊x⌋ else ⌈x⌉

/-- Python `int(x)` on an exact rational value: truncation toward zero. -/
def pytruncQ (q : ℚ) : ℤ :=
  if 0 ≤ q then ⌊q⌋ else ⌈q⌉

/-- `CONST_D = 4` -/
def CONST_D : ℕ := 4

/-- `CONST_N = 200` -/
def CONST_N : ℕ := 200

/-- `CONST_MIN_WIDTH = -2` -/
def CONST_MIN_WIDTH : ℚ := -2

/-- `CONST_MAX_WIDTH = 1` -/
def CONST_MAX_WIDTH : ℚ := 1

/-- `CONST_MIN_HEIGHT = -1` -/
def CONST_MIN_HEIGHT : ℚ := -1

/-- `CONST_MAX_HEIGHT = 1` -/
def CONST_MAX_HEIGHT : ℚ := 1

/-- `CONST_WIDTH_RESOLUTION = 1500` -/
def CONST_WIDTH_RESOLUTION : ℤ := 1500

/-- `CONST_HEIGHT_RESOLUTION = 1000` -/
def CONST_HEIGHT_RESOLUTION : ℤ := 1000

/-- `CONST_WIDTH_SPACING = abs((CONST_MAX_WIDTH - CONST_MIN_WIDTH) / CONST_WIDTH_RESOLUTION)` -/
def CONST_WIDTH_SPACING : ℚ :=
  |(CONST_MAX_WIDTH - CONST_MIN_WIDTH) / (CONST_WIDTH_RESOLUTION : ℚ)|

/-- `CONST_HEIGHT_SPACING = abs((CONST_MAX_HEIGHT - CONST_MIN_HEIGHT) / CONST_HEIGHT_RESOLUTION)` -/
def CONST_HEIGHT_SPACING : ℚ :=
  |(CONST_MAX_HEIGHT - CONST_MIN_HEIGHT) / (CONST_HEIGHT_RESOLUTION : ℚ)|

/-- `CONST_DIVERGENCE_LIMIT = 2` -/
def CONST_DIVERGENCE_LIMIT : ℝ := 2

/-- `calc_zeta`: one iteration `zeta_n = zeta_n_minus_one ** d + c`.
The Python signature declares `Optional[complex]`, but the body
unconditionally returns a value, so the embedding returns `ℂ`. -/
noncomputable def calc_zeta (zeta_n_minus_one : ℂ) (c : ℂ) (d : ℕ) : ℂ :=
  zeta_n_minus_one ^ d + c

/-- The loop body of `calc_zeta_n`: Python's
`for i in range(1, n + 1)` with early return, entered at index `i`
holding accumulator `zeta`.  When the loop is exhausted the function
returns `(zeta, n)`. -/
noncomputable def calc_zeta_go (c : ℂ) (d n : ℕ) (divergence_limit : ℝ)
    (zeta : ℂ) (i : ℕ) : ℂ × ℕ :=
  if h : i ≤ n then
    if Complex.abs (calc_zeta zeta c d) > divergence_limit then
      (calc_zeta zeta c d, i)
    else
      calc_zeta_go c d n divergence_limit (calc_zeta zeta c d) (i + 1)
  else (zeta, n)
termination_by n + 1 - i
decreasing_by omega

/-- `calc_zeta_n`: iterates `calc_zeta` from `zeta = 0`, testing
`abs(zeta) > divergence_limit` after each step and returning
`(zeta, i)` at the first index where the test holds, else `(zeta, n)`. -/
noncomputable def calc_zeta_n (c : ℂ) (d : ℕ := CONST_D) (n : ℕ := CONST_N)
    (divergence_limit : ℝ := CONST_DIVERGENCE_LIMIT) : ℂ × ℕ :=
  calc_zeta_go c d n divergence_limit 0 1

/-- The orbit of `0` under `z ↦ z ^ d + c`: `zetaIter c d k` is the value
of the accumulator `zeta` after `k` iterations of the loop body. -/
noncomputable def zetaIter (c : ℂ) (d : ℕ) : ℕ → ℂ
  | 0 => 0
  | k + 1 => calc_zeta (zetaIter c d k) c d

/-- `coord_to_complex`: direct construction of a complex number. -/
noncomputable def coord_to_complex (coord : ℝ × ℝ) : ℂ :=
  Complex.mk coord.1 coord.2

/-- `coord_to_pixel`: `(int(abs((x - CONST_MIN_WIDTH) / CONST_WIDTH_SPACING)),
int(abs((y - CONST_MIN_HEIGHT) / CONST_HEIGHT_SPACING)))`.  All the
arithmetic involved is rational, so this is embedded over `ℚ`. -/
def coord_to_pixel (coord : ℚ × ℚ) : ℤ × ℤ :=
  (pytruncQ |(coord.1 - CONST_MIN_WIDTH) / CONST_WIDTH_SPACING|,
   pytruncQ |(coord.2 - CONST_MIN_HEIGHT) / CONST_HEIGHT_SPACING|)

/-- `map_angle_to_colour`: negative angles are replaced by
`abs(angle) + 180`; `colour_val = int((765 / 360) * angle)`;
`num = int(colour_val / 255)`; result is the Python tuple
`num * [255] + [colour_val % 255] + (2 - num) * [1]` (list repetition
with a negative count is empty, hence `Int.toNat`). -/
noncomputable def map_angle_to_colour (angle : ℝ) : List ℤ :=
  let a := if angle < 0 then |angle| + 180 else angle
  let colour_val := pytrunc ((765 / 360) * a)
  let num := pytrunc ((colour_val : ℝ) / 255)
  List.replicate num.toNat 255 ++ [colour_val % 255] ++
    List.replicate (2 - num).toNat 1

/-- The tail of `get_pixel_colour` after `brightness_multiplier` is
chosen: unpack `map_angle_to_colour` into `red, green, blue` (a run-time
failure, modelled as `none`, unless there are exactly three components)
and return `(int(b * red * 1), int(b * green * 1), int(b * blue * 1))`. -/
noncomputable def pixel_from_brightness (zeta : ℂ) (brightness_multiplier : ℝ) :
    Option (ℤ × ℤ × ℤ) :=
  match map_angle_to_colour (Complex.arg zeta * 180 / Real.pi) with
  | [red, green, blue] =>
      some (pytrunc (brightness_multiplier * (red : ℝ) * 1),
            pytrunc (brightness_multiplier * (green : ℝ) * 1),
            pytrunc (brightness_multiplier * (blue : ℝ) * 1))
  | _ => none

/-- `get_pixel_colour`: `angle = np.angle(zeta, deg=True)`;
`brightness_multiplier` is `0` when `iteration == CONST_N` and
`-(2 ** (-iteration - 1 / 255)) + 1` otherwise; the colour is the
brightness-scaled unpacking of `map_angle_to_colour(angle)`. -/
noncomputable def get_pixel_colour (zeta : ℂ) (iteration : ℕ) :
    Option (ℤ × ℤ × ℤ) :=
  pixel_from_brightness zeta
    (if iteration = CONST_N then 0
     else -((2 : ℝ) ^ (-(iteration : ℝ) - 1 / 255)) + 1)

/-! ### Loop lemmas for `calc_zeta_n` -/

lemma calc_zeta_step (c : ℂ) (d : ℕ) (i : ℕ) (h : 1 ≤ i) :
    calc_zeta (zetaIter c d (i - 1)) c d = zetaIter c d i := by
  obtain ⟨k, rfl⟩ : ∃ k, i = k + 1 := ⟨i - 1, by omega⟩
  simp [zetaIter]

lemma calc_zeta_go_escape (c : ℂ) (d n : ℕ) (L : ℝ) (j : ℕ) :
    ∀ m i, j - i = m → 1 ≤ i → i ≤ j → j ≤ n →
    (∀ k, i ≤ k → k < j → Complex.abs (zetaIter c d k) ≤ L) →
    L < Complex.abs (zetaIter c d j) →
    calc_zeta_go c d n L (zetaIter c d (i - 1)) i = (zetaIter c d j, j) := by
  intro m
  induction m with
  | zero =>
    intro i hm h1 h2 h3 hall hj
    have hij : j = i := by omega
    subst hij
    rw [calc_zeta_go, dif_pos (show j ≤ n by omega), calc_zeta_step c d j h1,
      if_pos hj]
  | succ m ih =>
    intro i hm h1 h2 h3 hall hj
    have hin : i ≤ n := by omega
    have hilt : i < j := by omega
    rw [calc_zeta_go, dif_pos hin, calc_zeta_step c d i h1,
      if_neg (not_lt.mpr (hall i le_rfl hilt))]
    have hre : zetaIter c d i = zetaIter c d ((i + 1) - 1) := by norm_num
    rw [hre]
    exact ih (i + 1) (by omega) (by omega) (by omega) h3
      (fun k hk1 hk2 => hall k (by omega) hk2) hj

lemma calc_zeta_go_no_escape (c : ℂ) (d n : ℕ) (L : ℝ) :
    ∀ m i, n + 1 - i = m → 1 ≤ i → i ≤ n + 1 →
    (∀ k, i ≤ k → k ≤ n → Complex.abs (zetaIter c d k) ≤ L) →
    calc_zeta_go c d n L (zetaIter c d (i - 1)) i = (zetaIter c d n, n) := by
  intro m
  induction m with
  | zero =>
    intro i hm h1 h2 hall
    have hni : ¬ i ≤ n := by omega
    rw [calc_zeta_go, dif_neg hni]
    have hen : i - 1 = n := by omega
    rw [hen]
  | succ m ih =>
    intro i hm h1 h2 hall
    have hin : i ≤ n := by omega
    rw [calc_zeta_go, dif_pos hin, calc_zeta_step c d i h1,
      if_neg (not_lt.mpr (hall i le_rfl hin))]
    have hre : zetaIter c d i = zetaIter c d ((i + 1) - 1) := by norm_num
    rw [hre]
    exact ih (i + 1) (by omega) (by omega) (by omega)
      (fun k hk1 hk2 => hall k (by omega) hk2)

lemma calc_zeta_n_first_escape (c : ℂ) (d n : ℕ) (L : ℝ) (j : ℕ)
    (h1 : 1 ≤ j) (h2 : j ≤ n) (hj : L < Complex.abs (zetaIter c d j))
    (hmin : ∀ k, 1 ≤ k → k < j → Complex.abs (zetaIter c d k) ≤ L) :
    calc_zeta_n c d n L = (zetaIter c d j, j) := by
  have h0 : (0 : ℂ) = zetaIter c d (1 - 1) := rfl
  rw [calc_zeta_n, h0]
  exact calc_zeta_go_escape c d n L j (j - 1) 1 (by omega) le_rfl h1 h2 hmin hj

lemma calc_zeta_n_no_escape (c : ℂ) (d n : ℕ) (L : ℝ)
    (hall : ∀ k, 1 ≤ k → k ≤ n → Complex.abs (zetaIter c d k) ≤ L) :
    calc_zeta_n c d n L = (zetaIter c d n, n) := by
  have h0 : (0 : ℂ) = zetaIter c d (1 - 1) := rfl
  rw [calc_zeta_n, h0]
  exact calc_zeta_go_no_escape c d n L n 1 (by omega) le_rfl (by omega) hall

lemma zetaIter_three : zetaIter 3 1 1 = 3 := by
  simp [zetaIter, calc_zeta]

lemma abs_zetaIter_three : Complex.abs (zetaIter 3 1 1) = 3 := by
  rw [zetaIter_three]
  exact Complex.abs_ofNat 3

/-- C1: for every `c`, `d`, `n` and `divergence_limit`, `calc_zeta_n`
iterates `calc_zeta` starting from `zeta = 0` (the orbit `zetaIter`),
tests `|zeta| > divergence_limit` strictly after each step (a point whose
magnitude equals the limit keeps iterating), returns `(zeta_j, j)` at the
first index `j ∈ [1, n]` where the test holds, and returns
`(zeta_n, n)` after exactly `n` steps when no index triggers it. -/
theorem calc_zeta_n_run_characterization (c : ℂ) (d n : ℕ) (L : ℝ) :
    (∀ j, 1 ≤ j → j ≤ n → Complex.abs (zetaIter c d j) > L →
      (∀ k, 1 ≤ k → k < j → Complex.abs (zetaIter c d k) ≤ L) →
      calc_zeta_n c d n L = (zetaIter c d j, j)) ∧
    ((∀ k, 1 ≤ k → k ≤ n → Complex.abs (zetaIter c d k) ≤ L) →
      calc_zeta_n c d n L = (zetaIter c d n, n)) :=
  ⟨fun j hj1 hj2 hesc hmin => calc_zeta_n_first_escape c d n L j hj1 hj2 hesc hmin,
   fun hall => calc_zeta_n_no_escape c d n L hall⟩

/-- C1 witness: for `c = 3`, `d = 1`, `n = 1`, limit `2`, the run escapes
at the first step and returns `(zetaIter 3 1 1, 1)`. -/
theorem calc_zeta_n_run_characterization_witness :
    calc_zeta_n 3 1 1 2 = (zetaIter 3 1 1, 1) :=
  (calc_zeta_n_run_characterization 3 1 1 2).1 1 le_rfl le_rfl
    (by rw [gt_iff_lt, abs_zetaIter_three]; norm_num)
    (by intro k hk1 hk2; omega)

/-- C2 counterexample: with `c = 3`, `d = 1`, `n_max = 1`, limit `2`, the
returned count equals `n_max` although the orbit exceeded the limit at
step 1 (`|zeta_1| = 3 > 2`), refuting "count = n_max iff the point never
exceeded the divergence threshold within the n_max steps"; and with
`n_max = 0` the returned count is `0`, outside `[1, n_max]`. -/
theorem calc_zeta_n_count_claim_cex :
    (calc_zeta_n 3 1 1 2 = (zetaIter 3 1 1, 1) ∧
      Complex.abs (zetaIter 3 1 1) > 2) ∧
    (calc_zeta_n 3 1 0 2).2 = 0 := by
  refine ⟨⟨?_, ?_⟩, ?_⟩
  · exact calc_zeta_n_first_escape 3 1 1 2 1 le_rfl le_rfl
      (by rw [abs_zetaIter_three]; norm_num) (by intro k hk1 hk2; omega)
  · rw [gt_iff_lt, abs_zetaIter_three]; norm_num
  · rw [calc_zeta_n, calc_zeta_go, dif_neg (by omega : ¬ (1 : ℕ) ≤ 0)]

/-- C2 (amended): for `n ≥ 1`, the iteration count returned by
`calc_zeta_n` lies in `[1, n]`, and it equals `n` iff the orbit did not
exceed the divergence threshold within the first `n - 1` steps
(escape at exactly step `n` still returns count `n`). -/
theorem calc_zeta_n_count_inv (c : ℂ) (d n : ℕ) (L : ℝ) (hn : 1 ≤ n) :
    (1 ≤ (calc_zeta_n c d n L).2 ∧ (calc_zeta_n c d n L).2 ≤ n) ∧
    ((calc_zeta_n c d n L).2 = n ↔
      ∀ k, 1 ≤ k → k < n → Complex.abs (zetaIter c d k) ≤ L) := by
  classical
  by_cases hE : ∃ j, 1 ≤ j ∧ j ≤ n ∧ L < Complex.abs (zetaIter c d j)
  · set j0 := Nat.find hE with hj0
    obtain ⟨hj1, hj2, hj3⟩ := Nat.find_spec hE
    have hmin : ∀ k, 1 ≤ k → k < j0 → Complex.abs (zetaIter c d k) ≤ L := by
      intro k hk1 hk2
      have := Nat.find_min hE hk2
      push_neg at this
      exact this hk1 (by omega)
    have heq := calc_zeta_n_first_escape c d n L j0 hj1 hj2 hj3 hmin
    rw [heq]
    refine ⟨⟨hj1, hj2⟩, ?_, ?_⟩
    · intro hjn k hk1 hk2
      exact hmin k hk1 (by omega)
    · intro hforall
      by_contra hne
      have hlt : j0 < n := by omega
      exact absurd hj3 (not_lt.mpr (hforall j0 hj1 hlt))
  · push_neg at hE
    have heq := calc_zeta_n_no_escape c d n L hE
    rw [heq]
    exact ⟨⟨hn, le_rfl⟩, fun _ k hk1 hk2 => hE k hk1 (by omega), fun _ => rfl⟩

/-- C2 witness: the amended invariant instantiated at
`c = 3`, `d = 1`, `n = 1`, limit `2`. -/
theorem calc_zeta_n_count_inv_witness :
    (1 ≤ (calc_zeta_n 3 1 1 2).2 ∧ (calc_zeta_n 3 1 1 2).2 ≤ 1) ∧
    ((calc_zeta_n 3 1 1 2).2 = 1 ↔
      ∀ k, 1 ≤ k → k < 1 → Complex.abs (zetaIter 3 1 k) ≤ 2) :=
  calc_zeta_n_count_inv 3 1 1 2 le_rfl

/-- C3: `calc_zeta` returns exactly `zeta_prev ^ d + c`; in particular
`calc_zeta 0 (1 + i) 2 = 1 + i` and
`calc_zeta (51 - 25i) (51 - 25i) 2 = 2027 - 2575i`, exactly. -/
theorem calc_zeta_spec :
    (∀ (zeta_prev c : ℂ) (d : ℕ), calc_zeta zeta_prev c d = zeta_prev ^ d + c) ∧
    calc_zeta 0 (1 + Complex.I) 2 = 1 + Complex.I ∧
    calc_zeta (51 - 25 * Complex.I) (51 - 25 * Complex.I) 2 =
      2027 - 2575 * Complex.I := by
  refine ⟨fun z c d => rfl, by simp [calc_zeta], ?_⟩
  rw [calc_zeta]
  ring_nf
  rw [Complex.I_sq]
  ring

/-! ### Analysis of `map_angle_to_colour` -/

lemma floor_int_div_255 (cv : ℤ) : ⌊(cv : ℝ) / 255⌋ = cv / 255 := by
  rw [Int.floor_eq_iff]
  constructor
  · rw [le_div_iff₀ (by norm_num : (0:ℝ) < 255)]
    have h : (cv / 255) * 255 ≤ cv := by omega
    exact_mod_cast h
  · rw [div_lt_iff₀ (by norm_num : (0:ℝ) < 255)]
    have h : cv < (cv / 255 + 1) * 255 := by omega
    exact_mod_cast h

lemma pytrunc_intCast_div_255 (cv : ℤ) (h : 0 ≤ cv) :
    pytrunc ((cv : ℝ) / 255) = cv / 255 := by
  rw [pytrunc, if_pos (div_nonneg (by exact_mod_cast h) (by norm_num))]
  exact floor_int_div_255 cv

lemma map_angle_to_colour_parts (angle : ℝ) (h1 : -180 < angle) (h2 : angle ≤ 180) :
    ∃ cv : ℤ,
      cv = ⌊(765 / 360 : ℝ) * (if angle < 0 then |angle| + 180 else angle)⌋ ∧
      0 ≤ cv ∧ cv ≤ 764 ∧
      map_angle_to_colour angle =
        List.replicate (cv / 255).toNat 255 ++ [cv % 255] ++
          List.replicate (2 - cv / 255).toNat 1 := by
  set a : ℝ := if angle < 0 then |angle| + 180 else angle with ha
  have ha0 : 0 ≤ a := by
    rw [ha]
    split
    · have := abs_nonneg angle
      linarith
    · next hnn => linarith [not_lt.mp hnn]
  have ha360 : a < 360 := by
    rw [ha]
    split
    · next hneg => rw [abs_of_neg hneg]; linarith
    · linarith
  have hx0 : 0 ≤ (765 / 360 : ℝ) * a := mul_nonneg (by norm_num) ha0
  have hx765 : (765 / 360 : ℝ) * a < 765 := by nlinarith
  have hcveq : pytrunc ((765 / 360 : ℝ) * a) = ⌊(765 / 360 : ℝ) * a⌋ := by
    rw [pytrunc, if_pos hx0]
  have hcv0 : 0 ≤ pytrunc ((765 / 360 : ℝ) * a) := by
    rw [hcveq]
    exact Int.floor_nonneg.mpr hx0
  refine ⟨pytrunc ((765 / 360 : ℝ) * a), hcveq, hcv0, ?_, ?_⟩
  · rw [hcveq]
    have : ⌊(765 / 360 : ℝ) * a⌋ < 765 := Int.floor_lt.mpr (by exact_mod_cast hx765)
    omega
  · simp only [map_angle_to_colour]
    rw [← ha, pytrunc_intCast_div_255 _ hcv0]

lemma map_angle_to_colour_three (angle : ℝ) (h1 : -180 < angle) (h2 : angle ≤ 180) :
    ∃ r g b : ℤ, map_angle_to_colour angle = [r, g, b] ∧
      0 ≤ r ∧ r ≤ 255 ∧ 0 ≤ g ∧ g ≤ 255 ∧ 0 ≤ b ∧ b ≤ 255 := by
  obtain ⟨cv, hcv, h0, h764, heq⟩ := map_angle_to_colour_parts angle h1 h2
  have hm0 : 0 ≤ cv % 255 := Int.emod_nonneg cv (by norm_num)
  have hm1 : cv % 255 < 255 := Int.emod_lt_of_pos cv (by norm_num)
  have hq : cv / 255 = 0 ∨ cv / 255 = 1 ∨ cv / 255 = 2 := by omega
  rcases hq with h | h | h
  · exact ⟨cv % 255, 1, 1, by rw [heq, h]; rfl,
      hm0, by omega, by norm_num, by norm_num, by norm_num, by norm_num⟩
  · exact ⟨255, cv % 255, 1, by rw [heq, h]; rfl,
      by norm_num, by norm_num, hm0, by omega, by norm_num, by norm_num⟩
  · exact ⟨255, 255, cv % 255, by rw [heq, h]; rfl,
      by norm_num, by norm_num, by norm_num, by norm_num, hm0, by omega⟩

/-- C5 (amended): for every `angle ∈ (-180, 180]`, `map_angle_to_colour`
replaces a negative angle by `|angle| + 180`, computes
`raw = trunc((765/360) * angle)` — truncation toward zero, i.e. the floor
of the nonnegative normalized angle, not rounding — and
`sector = raw div 255 ∈ {0, 1, 2}`, and returns exactly three components:
the first `sector` components are 255, the next is `raw mod 255`, and the
remaining `2 - sector` components are 1.  (The left endpoint is open: at
`angle = -180` the normalized angle is 360, the sector is 3 and the
result has four components.) -/
theorem map_angle_to_colour_spec (angle : ℝ) (h1 : -180 < angle) (h2 : angle ≤ 180) :
    ∃ raw sector : ℤ,
      raw = ⌊(765 / 360 : ℝ) * (if angle < 0 then |angle| + 180 else angle)⌋ ∧
      sector = raw / 255 ∧ (sector = 0 ∨ sector = 1 ∨ sector = 2) ∧
      map_angle_to_colour angle =
        List.replicate sector.toNat 255 ++ [raw % 255] ++
          List.replicate (2 - sector).toNat 1 ∧
      (map_angle_to_colour angle).length = 3 := by
  obtain ⟨cv, hcv, h0, h764, heq⟩ := map_angle_to_colour_parts angle h1 h2
  refine ⟨cv, cv / 255, hcv, rfl, by omega, heq, ?_⟩
  rw [heq]
  simp only [List.length_append, List.length_replicate, List.length_singleton]
  omega

/-- C5 witness: the amended statement instantiated at `angle = 0`. -/
theorem map_angle_to_colour_spec_witness :
    (-180 < (0:ℝ) ∧ (0:ℝ) ≤ 180) ∧
    ∃ raw sector : ℤ,
      raw = ⌊(765 / 360 : ℝ) * (if (0:ℝ) < 0 then |(0:ℝ)| + 180 else (0:ℝ))⌋ ∧
      sector = raw / 255 ∧ (sector = 0 ∨ sector = 1 ∨ sector = 2) ∧
      map_angle_to_colour 0 =
        List.replicate sector.toNat 255 ++ [raw % 255] ++
          List.replicate (2 - sector).toNat 1 ∧
      (map_angle_to_colour 0).length = 3 :=
  ⟨⟨by norm_num, by norm_num⟩,
    map_angle_to_colour_spec 0 (by norm_num) (by norm_num)⟩

/-- C5 counterexample: at `angle = -180` (inside the claimed domain
`[-180, 180]`) the result has four components, `(255, 255, 255, 0)`, so
the sector is not in `{0, 1, 2}` and the result is not a triple; and at
`angle = 2/5` the code returns `(0, 1, 1)` while the claimed
`raw = round((765/360) * angle) = 1` would give first component `1`:
the code truncates instead of rounding. -/
theorem map_angle_to_colour_claim_cex :
    (map_angle_to_colour (-180)).length = 4 ∧
    map_angle_to_colour (-180) = [255, 255, 255, 0] ∧
    map_angle_to_colour (2/5) = [0, 1, 1] ∧
    round ((765 / 360 : ℝ) * (2/5)) = 1 := by
  have habs : |(-180 : ℝ)| = 180 := by
    rw [abs_neg]
    exact abs_of_nonneg (by norm_num)
  have h765 : ((765 : ℝ) / 360) * (|(-180 : ℝ)| + 180) = 765 := by
    rw [habs]; norm_num
  have hp765 : pytrunc (765 : ℝ) = 765 := by
    rw [pytrunc, if_pos (by norm_num : (0:ℝ) ≤ 765)]
    exact Int.floor_ofNat 765
  have hp3 : pytrunc (3 : ℝ) = 3 := by
    rw [pytrunc, if_pos (by norm_num : (0:ℝ) ≤ 3)]
    exact Int.floor_ofNat 3
  have hm180 : map_angle_to_colour (-180) = [255, 255, 255, 0] := by
    simp only [map_angle_to_colour, if_pos (by norm_num : (-180:ℝ) < 0), h765]
    rw [hp765, show (((765:ℤ)):ℝ) / 255 = 3 by norm_num, hp3]
    rfl
  have h04 : ((765 : ℝ) / 360) * (2/5) = 17/20 := by norm_num
  have hfloor04 : ⌊(17/20 : ℝ)⌋ = 0 := by
    rw [Int.floor_eq_zero_iff]
    constructor <;> norm_num
  refine ⟨by rw [hm180]; rfl, hm180, ?_, ?_⟩
  · have hp0417 : pytrunc (17/20 : ℝ) = 0 := by
      rw [pytrunc, if_pos (by norm_num : (0:ℝ) ≤ 17/20)]
      exact hfloor04
    have hp0 : pytrunc (0 : ℝ) = 0 := by
      rw [pytrunc, if_pos le_rfl]
      exact Int.floor_zero
    simp only [map_angle_to_colour, if_neg (by norm_num : ¬ ((2:ℝ)/5) < 0), h04]
    rw [hp0417, show (((0:ℤ)):ℝ) / 255 = 0 by norm_num, hp0]
    rfl
  · rw [h04, round_eq]
    rw [show (17/20 : ℝ) + 1/2 = 27/20 by norm_num]
    rw [Int.floor_eq_iff]
    constructor <;> norm_num

/-! ### Analysis of `get_pixel_colour` -/

lemma pytrunc_of_nonneg {x : ℝ} (h : 0 ≤ x) : pytrunc x = ⌊x⌋ := if_pos h

lemma pytrunc_zero : pytrunc 0 = 0 := by
  rw [pytrunc_of_nonneg le_rfl]
  exact Int.floor_zero

lemma angle_deg_bounds (zeta : ℂ) :
    -180 < Complex.arg zeta * 180 / Real.pi ∧
    Complex.arg zeta * 180 / Real.pi ≤ 180 := by
  have hpi : 0 < Real.pi := Real.pi_pos
  constructor
  · rw [lt_div_iff₀ hpi]
    have := Complex.neg_pi_lt_arg zeta
    linarith
  · rw [div_le_iff₀ hpi]
    have := Complex.arg_le_pi zeta
    linarith

lemma pixel_from_brightness_eq (zeta : ℂ) (B : ℝ) (r g b : ℤ)
    (h : map_angle_to_colour (Complex.arg zeta * 180 / Real.pi) = [r, g, b]) :
    pixel_from_brightness zeta B =
      some (pytrunc (B * (r:ℝ) * 1), pytrunc (B * (g:ℝ) * 1),
        pytrunc (B * (b:ℝ) * 1)) := by
  rw [pixel_from_brightness, h]

lemma brightness_code_nonneg_lt_one (i : ℕ) :
    0 ≤ (if i = CONST_N then (0:ℝ)
      else -((2 : ℝ) ^ (-(i : ℝ) - 1 / 255)) + 1) ∧
    (if i = CONST_N then (0:ℝ)
      else -((2 : ℝ) ^ (-(i : ℝ) - 1 / 255)) + 1) < 1 := by
  split
  · norm_num
  · have he : (-(i : ℝ) - 1 / 255) < 0 := by
      have : (0:ℝ) ≤ (i : ℝ) := Nat.cast_nonneg i
      linarith
    have h1 : (2 : ℝ) ^ (-(i : ℝ) - 1 / 255) < 1 :=
      Real.rpow_lt_one_of_one_lt_of_neg (by norm_num) he
    have h2 : 0 < (2 : ℝ) ^ (-(i : ℝ) - 1 / 255) :=
      Real.rpow_pos_of_pos (by norm_num) _
    constructor <;> linarith

lemma pytrunc_scaled_bounds (B : ℝ) (hB0 : 0 ≤ B) (hB1 : B < 1)
    (v : ℤ) (h0 : 0 ≤ v) (h1 : v ≤ 255) :
    0 ≤ pytrunc (B * (v:ℝ) * 1) ∧ pytrunc (B * (v:ℝ) * 1) ≤ 255 := by
  have hv0 : (0:ℝ) ≤ (v:ℝ) := by exact_mod_cast h0
  have hv1 : (v:ℝ) ≤ 255 := by exact_mod_cast h1
  have hprod0 : 0 ≤ B * (v:ℝ) * 1 := by
    rw [mul_one]
    exact mul_nonneg hB0 hv0
  have hprod1 : B * (v:ℝ) * 1 ≤ 255 := by
    rw [mul_one]
    calc B * (v:ℝ) ≤ 1 * (v:ℝ) := mul_le_mul_of_nonneg_right (le_of_lt hB1) hv0
    _ = (v:ℝ) := one_mul _
    _ ≤ 255 := hv1
  rw [pytrunc, if_pos hprod0]
  refine ⟨Int.floor_nonneg.mpr hprod0, ?_⟩
  have := Int.floor_le_floor hprod1
  rw [show ⌊(255:ℝ)⌋ = 255 from Int.floor_ofNat 255] at this
  exact this

/-- C7: for conformant inputs (iteration count in `[1, n]`, any complex
`zeta` — its principal argument in degrees always lies in `(-180, 180]`),
`get_pixel_colour` has no failure mode: it returns a triple, and every
component lies in `[0, 255]`. -/
theorem get_pixel_colour_safe (zeta : ℂ) (iteration n : ℕ)
    (h1 : 1 ≤ iteration) (h2 : iteration ≤ n) :
    ∃ t : ℤ × ℤ × ℤ, get_pixel_colour zeta iteration = some t ∧
      0 ≤ t.1 ∧ t.1 ≤ 255 ∧ 0 ≤ t.2.1 ∧ t.2.1 ≤ 255 ∧
      0 ≤ t.2.2 ∧ t.2.2 ≤ 255 := by
  obtain ⟨hang1, hang2⟩ := angle_deg_bounds zeta
  obtain ⟨r, g, b, hlist, hr0, hr1, hg0, hg1, hb0, hb1⟩ :=
    map_angle_to_colour_three _ hang1 hang2
  obtain ⟨hB0, hB1⟩ := brightness_code_nonneg_lt_one iteration
  rw [get_pixel_colour, pixel_from_brightness_eq _ _ r g b hlist]
  obtain ⟨hr0', hr1'⟩ := pytrunc_scaled_bounds _ hB0 hB1 r hr0 hr1
  obtain ⟨hg0', hg1'⟩ := pytrunc_scaled_bounds _ hB0 hB1 g hg0 hg1
  obtain ⟨hb0', hb1'⟩ := pytrunc_scaled_bounds _ hB0 hB1 b hb0 hb1
  exact ⟨_, rfl, hr0', hr1', hg0', hg1', hb0', hb1'⟩

/-- C7 witness: the safety statement instantiated at `zeta = 1`,
`iteration = 1`, `n = 1`. -/
theorem get_pixel_colour_safe_witness :
    ((1:ℕ) ≤ 1 ∧ (1:ℕ) ≤ 1) ∧
    ∃ t : ℤ × ℤ × ℤ, get_pixel_colour 1 1 = some t ∧
      0 ≤ t.1 ∧ t.1 ≤ 255 ∧ 0 ≤ t.2.1 ∧ t.2.1 ≤ 255 ∧
      0 ≤ t.2.2 ∧ t.2.2 ≤ 255 :=
  ⟨⟨le_rfl, le_rfl⟩, get_pixel_colour_safe 1 1 1 le_rfl le_rfl⟩

/-- C6 (amended): for every final `zeta` and iteration count,
`get_pixel_colour` computes brightness 0 when the iteration count equals
the process-wide bound `CONST_N` (in-set points render black) and
`1 - 2^(-iteration - 1/255)` otherwise, and returns the componentwise
TRUNCATION toward zero (Python `int()`, not rounding) of brightness times
each component of `map_angle_to_colour` applied to the principal argument
of `zeta` in degrees. -/
theorem get_pixel_colour_spec (zeta : ℂ) (iteration : ℕ) :
    (∃ r g b : ℤ,
      map_angle_to_colour (Complex.arg zeta * 180 / Real.pi) = [r, g, b] ∧
      get_pixel_colour zeta iteration =
        some (pytrunc ((if iteration = CONST_N then (0:ℝ)
                else 1 - (2 : ℝ) ^ (-(iteration : ℝ) - 1 / 255)) * (r:ℝ)),
              pytrunc ((if iteration = CONST_N then (0:ℝ)
                else 1 - (2 : ℝ) ^ (-(iteration : ℝ) - 1 / 255)) * (g:ℝ)),
              pytrunc ((if iteration = CONST_N then (0:ℝ)
                else 1 - (2 : ℝ) ^ (-(iteration : ℝ) - 1 / 255)) * (b:ℝ)))) ∧
    get_pixel_colour zeta CONST_N = some (0, 0, 0) := by
  obtain ⟨hang1, hang2⟩ := angle_deg_bounds zeta
  obtain ⟨r, g, b, hlist, _⟩ := map_angle_to_colour_three _ hang1 hang2
  constructor
  · refine ⟨r, g, b, hlist, ?_⟩
    rw [get_pixel_colour, pixel_from_brightness_eq _ _ r g b hlist]
    have hbr : (if iteration = CONST_N then (0:ℝ)
        else -((2 : ℝ) ^ (-(iteration : ℝ) - 1 / 255)) + 1)
        = (if iteration = CONST_N then (0:ℝ)
        else 1 - (2 : ℝ) ^ (-(iteration : ℝ) - 1 / 255)) := by
      split <;> ring
    rw [hbr]
    simp only [mul_one]
  · rw [get_pixel_colour, if_pos rfl, pixel_from_brightness_eq _ _ r g b hlist]
    rw [show (0:ℝ) * (r:ℝ) * 1 = 0 by ring, show (0:ℝ) * (g:ℝ) * 1 = 0 by ring,
      show (0:ℝ) * (b:ℝ) * 1 = 0 by ring, pytrunc_zero]

lemma arg_one_angle : Complex.arg 1 * 180 / Real.pi = 0 := by
  rw [Complex.arg_one, zero_mul, zero_div]

lemma map_angle_zero : map_angle_to_colour 0 = [0, 1, 1] := by
  simp only [map_angle_to_colour, if_neg (lt_irrefl (0:ℝ)), mul_zero, pytrunc_zero]
  rw [show (((0:ℤ)):ℝ) / 255 = 0 by norm_num, pytrunc_zero]
  rfl

lemma rpow_one_term_bounds :
    0 < (2 : ℝ) ^ (-((1:ℕ) : ℝ) - 1 / 255) ∧
    (2 : ℝ) ^ (-((1:ℕ) : ℝ) - 1 / 255) ≤ 1 / 2 := by
  constructor
  · exact Real.rpow_pos_of_pos (by norm_num) _
  · have h : (2 : ℝ) ^ (-((1:ℕ) : ℝ) - 1 / 255) ≤ (2 : ℝ) ^ (-1 : ℝ) := by
      apply Real.rpow_le_rpow_of_exponent_le (by norm_num)
      push_cast
      norm_num
    have h2 : ((2:ℝ))⁻¹ = 1 / 2 := by norm_num
    rw [Real.rpow_neg_one, h2] at h
    exact h

/-- C6 counterexample: at `zeta = 1`, `iteration = 1` the code returns
`(0, 0, 0)`: the colour components are `(0, 1, 1)`, the divergent
brightness is `1 - 2^(-1 - 1/255) ∈ [1/2, 1)`, and Python `int()`
truncates `brightness * 1` to `0` — while the claimed componentwise
`round` gives `round(brightness * 1) = 1`.  The code truncates, it does
not round. -/
theorem get_pixel_colour_claim_cex :
    get_pixel_colour 1 1 = some (0, 0, 0) ∧
    map_angle_to_colour (Complex.arg 1 * 180 / Real.pi) = [0, 1, 1] ∧
    round ((1 - (2 : ℝ) ^ (-((1:ℕ) : ℝ) - 1 / 255)) * ((1:ℤ):ℝ)) = 1 := by
  have hlist : map_angle_to_colour (Complex.arg 1 * 180 / Real.pi) = [0, 1, 1] := by
    rw [arg_one_angle, map_angle_zero]
  obtain ⟨ht0, ht12⟩ := rpow_one_term_bounds
  set t : ℝ := (2 : ℝ) ^ (-((1:ℕ) : ℝ) - 1 / 255) with htdef
  refine ⟨?_, hlist, ?_⟩
  · rw [get_pixel_colour, pixel_from_brightness_eq _ _ 0 1 1 hlist]
    have hB : (if (1:ℕ) = CONST_N then (0:ℝ)
        else -((2 : ℝ) ^ (-((1:ℕ) : ℝ) - 1 / 255)) + 1) = -t + 1 := by
      rw [if_neg (by norm_num [CONST_N])]
    rw [hB]
    have c1 : pytrunc ((-t + 1) * ((0:ℤ):ℝ) * 1) = 0 := by
      rw [show (-t + 1) * ((0:ℤ):ℝ) * 1 = 0 by push_cast; ring, pytrunc_zero]
    have harg : (-t + 1) * ((1:ℤ):ℝ) * 1 = -t + 1 := by push_cast; ring
    have c2 : pytrunc ((-t + 1) * ((1:ℤ):ℝ) * 1) = 0 := by
      rw [harg, pytrunc_of_nonneg (by linarith), Int.floor_eq_zero_iff]
      constructor <;> simp <;> linarith
    rw [c1, c2]
  · rw [show (1 - t) * ((1:ℤ):ℝ) = 1 - t by push_cast; ring, round_eq]
    rw [Int.floor_eq_iff]
    constructor
    · push_cast
      linarith
    · push_cast
      linarith

/-- C10: `get_pixel_colour` decides the in-set (black) branch by
comparing its iteration argument with the process-wide constant
`CONST_N = 200`, not a caller-supplied bound: for every `zeta` and every
`iteration ≠ 200` it applies the divergent brightness formula, even when
the evaluator was run with a different bound equal to that count. -/
theorem get_pixel_colour_const_n (zeta : ℂ) (iteration : ℕ)
    (h : iteration ≠ 200) :
    CONST_N = 200 ∧
    get_pixel_colour zeta iteration =
      pixel_from_brightness zeta
        (-((2 : ℝ) ^ (-(iteration : ℝ) - 1 / 255)) + 1) := by
  refine ⟨rfl, ?_⟩
  rw [get_pixel_colour, if_neg (by simpa [CONST_N] using h)]

/-- C10 witness: instantiated at `zeta = 1`, `iteration = 1 ≠ 200`. -/
theorem get_pixel_colour_const_n_witness :
    (1:ℕ) ≠ 200 ∧
    (CONST_N = 200 ∧
      get_pixel_colour 1 1 =
        pixel_from_brightness 1
          (-((2 : ℝ) ^ (-((1:ℕ) : ℝ) - 1 / 255)) + 1)) :=
  ⟨by norm_num, get_pixel_colour_const_n 1 1 (by norm_num)⟩

/-! ### Analysis of `coord_to_pixel` -/

lemma pytruncQ_of_nonneg {q : ℚ} (h : 0 ≤ q) : pytruncQ q = ⌊q⌋ := if_pos h

lemma width_spacing_eq : CONST_WIDTH_SPACING = 1/500 := by
  rw [CONST_WIDTH_SPACING, CONST_MAX_WIDTH, CONST_MIN_WIDTH, CONST_WIDTH_RESOLUTION]
  rw [show ((1:ℚ) - -2) / (((1500:ℤ)):ℚ) = 1/500 by push_cast; norm_num]
  exact abs_of_nonneg (by norm_num)

lemma height_spacing_eq : CONST_HEIGHT_SPACING = 1/500 := by
  rw [CONST_HEIGHT_SPACING, CONST_MAX_HEIGHT, CONST_MIN_HEIGHT, CONST_HEIGHT_RESOLUTION]
  rw [show ((1:ℚ) - -1) / (((1000:ℤ)):ℚ) = 1/500 by push_cast; norm_num]
  exact abs_of_nonneg (by norm_num)

lemma coord_to_pixel_x_eq (x : ℚ) (h1 : CONST_MIN_WIDTH ≤ x) :
    pytruncQ |(x - CONST_MIN_WIDTH) / CONST_WIDTH_SPACING| =
      ⌊|x - CONST_MIN_WIDTH| /
        (|CONST_MAX_WIDTH - CONST_MIN_WIDTH| / ((CONST_WIDTH_RESOLUTION : ℤ) : ℚ))⌋ := by
  have hd : |CONST_MAX_WIDTH - CONST_MIN_WIDTH| / ((CONST_WIDTH_RESOLUTION : ℤ) : ℚ)
      = 1/500 := by
    rw [CONST_MAX_WIDTH, CONST_MIN_WIDTH, CONST_WIDTH_RESOLUTION]
    rw [show ((1:ℚ) - -2) = 3 by norm_num,
      abs_of_nonneg (by norm_num : (0:ℚ) ≤ 3)]
    push_cast
    norm_num
  rw [CONST_MIN_WIDTH] at h1
  have hx0 : 0 ≤ x - CONST_MIN_WIDTH := by rw [CONST_MIN_WIDTH]; linarith
  have hq0 : 0 ≤ (x - CONST_MIN_WIDTH) / CONST_WIDTH_SPACING :=
    div_nonneg hx0 (by rw [width_spacing_eq]; norm_num)
  rw [hd, abs_of_nonneg hq0, abs_of_nonneg hx0, pytruncQ_of_nonneg hq0,
    width_spacing_eq]

lemma coord_to_pixel_y_eq (y : ℚ) (h1 : CONST_MIN_HEIGHT ≤ y) :
    pytruncQ |(y - CONST_MIN_HEIGHT) / CONST_HEIGHT_SPACING| =
      ⌊|y - CONST_MIN_HEIGHT| /
        (|CONST_MAX_HEIGHT - CONST_MIN_HEIGHT| / ((CONST_HEIGHT_RESOLUTION : ℤ) : ℚ))⌋ := by
  have hd : |CONST_MAX_HEIGHT - CONST_MIN_HEIGHT| / ((CONST_HEIGHT_RESOLUTION : ℤ) : ℚ)
      = 1/500 := by
    rw [CONST_MAX_HEIGHT, CONST_MIN_HEIGHT, CONST_HEIGHT_RESOLUTION]
    rw [show ((1:ℚ) - -1) = 2 by norm_num,
      abs_of_nonneg (by norm_num : (0:ℚ) ≤ 2)]
    push_cast
    norm_num
  rw [CONST_MIN_HEIGHT] at h1
  have hy0 : 0 ≤ y - CONST_MIN_HEIGHT := by rw [CONST_MIN_HEIGHT]; linarith
  have hq0 : 0 ≤ (y - CONST_MIN_HEIGHT) / CONST_HEIGHT_SPACING :=
    div_nonneg hy0 (by rw [height_spacing_eq]; norm_num)
  rw [hd, abs_of_nonneg hq0, abs_of_nonneg hy0, pytruncQ_of_nonneg hq0,
    height_spacing_eq]

/-- C8: for every coordinate `(x, y)` within the configured plane region,
`coord_to_pixel` returns exactly
`(floor(|x - MIN_RE| / spacing_re), floor(|y - MIN_IM| / spacing_im))`
with `spacing_re = |MAX_RE - MIN_RE| / WIDTH_RES` and
`spacing_im = |MAX_IM - MIN_IM| / HEIGHT_RES`. -/
theorem coord_to_pixel_spec (x y : ℚ)
    (hx1 : CONST_MIN_WIDTH ≤ x) (hx2 : x ≤ CONST_MAX_WIDTH)
    (hy1 : CONST_MIN_HEIGHT ≤ y) (hy2 : y ≤ CONST_MAX_HEIGHT) :
    coord_to_pixel (x, y) =
      (⌊|x - CONST_MIN_WIDTH| /
         (|CONST_MAX_WIDTH - CONST_MIN_WIDTH| / ((CONST_WIDTH_RESOLUTION : ℤ) : ℚ))⌋,
       ⌊|y - CONST_MIN_HEIGHT| /
         (|CONST_MAX_HEIGHT - CONST_MIN_HEIGHT| / ((CONST_HEIGHT_RESOLUTION : ℤ) : ℚ))⌋) :=
  Prod.ext_iff.mpr ⟨coord_to_pixel_x_eq x hx1, coord_to_pixel_y_eq y hy1⟩

/-- C8 witness: the pixel mapping at the in-region coordinate `(0, 0)`. -/
theorem coord_to_pixel_spec_witness :
    coord_to_pixel (0, 0) =
      (⌊|(0:ℚ) - CONST_MIN_WIDTH| /
         (|CONST_MAX_WIDTH - CONST_MIN_WIDTH| / ((CONST_WIDTH_RESOLUTION : ℤ) : ℚ))⌋,
       ⌊|(0:ℚ) - CONST_MIN_HEIGHT| /
         (|CONST_MAX_HEIGHT - CONST_MIN_HEIGHT| / ((CONST_HEIGHT_RESOLUTION : ℤ) : ℚ))⌋) :=
  coord_to_pixel_spec 0 0 (by rw [CONST_MIN_WIDTH]; norm_num)
    (by rw [CONST_MAX_WIDTH]; norm_num)
    (by rw [CONST_MIN_HEIGHT]; norm_num)
    (by rw [CONST_MAX_HEIGHT]; norm_num)

lemma pixel_x_bounds (x : ℚ) (h1 : CONST_MIN_WIDTH ≤ x) (h2 : x ≤ CONST_MAX_WIDTH) :
    0 ≤ pytruncQ |(x - CONST_MIN_WIDTH) / CONST_WIDTH_SPACING| ∧
    pytruncQ |(x - CONST_MIN_WIDTH) / CONST_WIDTH_SPACING| ≤ 1500 := by
  rw [CONST_MIN_WIDTH] at h1
  rw [CONST_MAX_WIDTH] at h2
  rw [width_spacing_eq, CONST_MIN_WIDTH]
  have hq0 : 0 ≤ (x - -2) / (1/500 : ℚ) := div_nonneg (by linarith) (by norm_num)
  rw [abs_of_nonneg hq0, pytruncQ_of_nonneg hq0]
  refine ⟨Int.floor_nonneg.mpr hq0, ?_⟩
  have hle : (x - -2) / (1/500 : ℚ) ≤ 1500 := by
    rw [div_le_iff₀ (by norm_num : (0:ℚ) < 1/500)]
    linarith
  have h := Int.floor_le_floor hle
  rw [show ⌊(1500:ℚ)⌋ = 1500 from Int.floor_ofNat 1500] at h
  exact h

lemma pixel_y_bounds (y : ℚ) (h1 : CONST_MIN_HEIGHT ≤ y) (h2 : y ≤ CONST_MAX_HEIGHT) :
    0 ≤ pytruncQ |(y - CONST_MIN_HEIGHT) / CONST_HEIGHT_SPACING| ∧
    pytruncQ |(y - CONST_MIN_HEIGHT) / CONST_HEIGHT_SPACING| ≤ 1000 := by
  rw [CONST_MIN_HEIGHT] at h1
  rw [CONST_MAX_HEIGHT] at h2
  rw [height_spacing_eq, CONST_MIN_HEIGHT]
  have hq0 : 0 ≤ (y - -1) / (1/500 : ℚ) := div_nonneg (by linarith) (by norm_num)
  rw [abs_of_nonneg hq0, pytruncQ_of_nonneg hq0]
  refine ⟨Int.floor_nonneg.mpr hq0, ?_⟩
  have hle : (y - -1) / (1/500 : ℚ) ≤ 1000 := by
    rw [div_le_iff₀ (by norm_num : (0:ℚ) < 1/500)]
    linarith
  have h := Int.floor_le_floor hle
  rw [show ⌊(1000:ℚ)⌋ = 1000 from Int.floor_ofNat 1000] at h
  exact h

/-- C9: for every coordinate in the plane region, `coord_to_pixel`
returns a pixel `(px, py)` with `0 ≤ px ≤ WIDTH_RES` and
`0 ≤ py ≤ HEIGHT_RES`; the upper bounds are attained at
`(MAX_RE, MAX_IM)`, so every pixel write lands inside an image of
dimensions `(WIDTH_RES + 1) × (HEIGHT_RES + 1)`. -/
theorem coord_to_pixel_bounds (x y : ℚ)
    (hx1 : CONST_MIN_WIDTH ≤ x) (hx2 : x ≤ CONST_MAX_WIDTH)
    (hy1 : CONST_MIN_HEIGHT ≤ y) (hy2 : y ≤ CONST_MAX_HEIGHT) :
    (0 ≤ (coord_to_pixel (x, y)).1 ∧
      (coord_to_pixel (x, y)).1 ≤ CONST_WIDTH_RESOLUTION) ∧
    (0 ≤ (coord_to_pixel (x, y)).2 ∧
      (coord_to_pixel (x, y)).2 ≤ CONST_HEIGHT_RESOLUTION) ∧
    coord_to_pixel (CONST_MAX_WIDTH, CONST_MAX_HEIGHT) =
      (CONST_WIDTH_RESOLUTION, CONST_HEIGHT_RESOLUTION) := by
  obtain ⟨hx0, hxr⟩ := pixel_x_bounds x hx1 hx2
  obtain ⟨hy0, hyr⟩ := pixel_y_bounds y hy1 hy2
  refine ⟨⟨hx0, by rw [CONST_WIDTH_RESOLUTION]; exact hxr⟩,
    ⟨hy0, by rw [CONST_HEIGHT_RESOLUTION]; exact hyr⟩, ?_⟩
  refine Prod.ext_iff.mpr ⟨?_, ?_⟩
  · show pytruncQ |(CONST_MAX_WIDTH - CONST_MIN_WIDTH) / CONST_WIDTH_SPACING|
      = CONST_WIDTH_RESOLUTION
    rw [width_spacing_eq, CONST_MAX_WIDTH, CONST_MIN_WIDTH, CONST_WIDTH_RESOLUTION]
    rw [show ((1:ℚ) - -2) / (1/500) = 1500 by norm_num]
    rw [abs_of_nonneg (by norm_num : (0:ℚ) ≤ 1500),
      pytruncQ_of_nonneg (by norm_num : (0:ℚ) ≤ 1500)]
    exact Int.floor_ofNat 1500
  · show pytruncQ |(CONST_MAX_HEIGHT - CONST_MIN_HEIGHT) / CONST_HEIGHT_SPACING|
      = CONST_HEIGHT_RESOLUTION
    rw [height_spacing_eq, CONST_MAX_HEIGHT, CONST_MIN_HEIGHT, CONST_HEIGHT_RESOLUTION]
    rw [show ((1:ℚ) - -1) / (1/500) = 1000 by norm_num]
    rw [abs_of_nonneg (by norm_num : (0:ℚ) ≤ 1000),
      pytruncQ_of_nonneg (by norm_num : (0:ℚ) ≤ 1000)]
    exact Int.floor_ofNat 1000

/-- C9 witness: the bounds instantiated at the in-region coordinate
`(0, 0)` (pixel `(1000, 500)` lies inside the image). -/
theorem coord_to_pixel_bounds_witness :
    (0 ≤ (coord_to_pixel (0, 0)).1 ∧
      (coord_to_pixel (0, 0)).1 ≤ CONST_WIDTH_RESOLUTION) ∧
    (0 ≤ (coord_to_pixel (0, 0)).2 ∧
      (coord_to_pixel (0, 0)).2 ≤ CONST_HEIGHT_RESOLUTION) ∧
    coord_to_pixel (CONST_MAX_WIDTH, CONST_MAX_HEIGHT) =
      (CONST_WIDTH_RESOLUTION, CONST_HEIGHT_RESOLUTION) :=
  coord_to_pixel_bounds 0 0 (by rw [CONST_MIN_WIDTH]; norm_num)
    (by rw [CONST_MAX_WIDTH]; norm_num)
    (by rw [CONST_MIN_HEIGHT]; norm_num)
    (by rw [CONST_MAX_HEIGHT]; norm_num)

end Mandelbrot
